import Mathlib

/-!
Shallow embedding of the `gsm7` crate (`src/lib.rs`): a GSM 7-bit
packed codec. The underlying `bitstream_io::{BitReader, BitWriter}`
with `LittleEndian` endianness is modelled as bit-list manipulation:
bits of each byte are produced / consumed least-significant-bit first,
and a 7-bit unit read or written LSB-first assembles its value with the
first bit as the least significant.
-/

namespace Gsm7

/-- Error kinds of `std::io::ErrorKind` used by the crate. `read`/`write`
on the in-memory buffers used to instantiate the codec can only fail with
`UnexpectedEof`; the crate itself makes errors via
`io::ErrorKind::InvalidData.into()`; `bitstream_io`'s `BitWriter::write`
rejects a value that does not fit the requested bit count with an
`InvalidInput` error ("excessive value for bits written"). -/
inductive ErrorKind where
  | unexpectedEof
  | invalidData
  | invalidInput
deriving DecidableEq, Repr

/-- Value of a bit list, first element least significant (LittleEndian). -/
def natOfBits (bs : List Bool) : Nat :=
  bs.foldr (fun b acc => (if b then 1 else 0) + 2 * acc) 0

/-- The `n` low bits of `v`, least significant first (LittleEndian). -/
def bitsOfNat : Nat → Nat → List Bool
  | 0, _ => []
  | n + 1, v => (v % 2 = 1) :: bitsOfNat n (v / 2)

/-- State of `bitstream_io::BitWriter<Vec<u8>, LittleEndian>`: the bytes
already flushed to the sink, plus the accumulator of pending bits
(fewer than 8) of the current byte. -/
structure BitW where
  bytes : List Nat
  acc : List Bool
deriving DecidableEq, Repr

/-- Push one bit into the accumulator, flushing a completed byte. -/
def BitW.pushBit (w : BitW) (b : Bool) : BitW :=
  let acc := w.acc ++ [b]
  if acc.length = 8 then ⟨w.bytes ++ [natOfBits acc], []⟩ else ⟨w.bytes, acc⟩

/-- Push a list of bits in order. -/
def BitW.pushBits (w : BitW) (bs : List Bool) : BitW :=
  bs.foldl BitW.pushBit w

/-- Success path of `BitWriter::write(bits, value)` with LittleEndian:
the `bits` bits of `value`, least significant first. `BitWriter::write`
first rejects `value ≥ 2 ^ bits` with `InvalidInput` before writing
anything; that guard is modelled at the call site where unbounded values
can enter (`Gsm7Writer.write` below). The crate's other calls pass
septet values below 128 = 2 ^ 7 (base-table indices, extension codes,
`ESC`, the 0x0D filler), where the guard never fires. -/
def BitW.writeBits (w : BitW) (bits : Nat) (value : Nat) : BitW :=
  w.pushBits (bitsOfNat bits value)

/-- `BitWriter::byte_align()`: pad with 0 bits until byte-aligned. -/
def BitW.byteAlign (w : BitW) : BitW :=
  if w.acc.isEmpty then w else w.pushBits (List.replicate (8 - w.acc.length) false)

/-- `BitWriter::write_bytes(buf)`: each byte written as an 8-bit unit. -/
def BitW.writeBytesRaw (w : BitW) (buf : List Nat) : BitW :=
  buf.foldl (fun w b => w.writeBits 8 b) w

/-- The whole bit stream pushed into a `BitW` so far: flushed bytes
(LSB-first each) followed by the pending accumulator bits. -/
def BitW.emitted (w : BitW) : List Bool :=
  (w.bytes.map (bitsOfNat 8)).flatten ++ w.acc

/-- The `GSM7_CHARSET` table of `src/lib.rs`, in order: septet value is
positional index. -/
def GSM7_CHARSET : List Char :=
  ['@', '£', '$', '¥', 'è', 'é', 'ù', 'ì', 'ò', 'Ç', '\n', 'Ø', 'ø', '\r', 'Å', 'å',
   'Δ', '_', 'Φ', 'Γ', 'Λ', 'Ω', 'Π', 'Ψ', 'Σ', 'Θ', 'Ξ', '\x1B', 'Æ', 'æ', 'ß', 'É',
   ' ', '!', '"', '#', '¤', '%', '&', '\'', '(', ')', '*', '+', ',', '-', '.', '/',
   '0', '1', '2', '3', '4', '5', '6', '7', '8', '9', ':', ';', '<', '=', '>', '?',
   '¡', 'A', 'B', 'C', 'D', 'E', 'F', 'G', 'H', 'I', 'J', 'K', 'L', 'M', 'N', 'O',
   'P', 'Q', 'R', 'S', 'T', 'U', 'V', 'W', 'X', 'Y', 'Z', 'Ä', 'Ö', 'Ñ', 'Ü', '§',
   '¿', 'a', 'b', 'c', 'd', 'e', 'f', 'g', 'h', 'i', 'j', 'k', 'l', 'm', 'n', 'o',
   'p', 'q', 'r', 's', 't', 'u', 'v', 'w', 'x', 'y', 'z', 'ä', 'ö', 'ñ', 'ü', 'à']

/-- The `ESC` constant of `src/lib.rs`. -/
def ESC : Nat := 0x1B

/-- Escape-table decode direction: the `match septet` arms inside
`Gsm7Reader::read_char` after the escape marker. -/
def escDecodeChar (s : Nat) : Option Char :=
  if s = 0x0A then some '\x0C'
  else if s = 0x14 then some '^'
  else if s = 0x28 then some '{'
  else if s = 0x29 then some '}'
  else if s = 0x2F then some '\\'
  else if s = 0x3C then some '['
  else if s = 0x3D then some '~'
  else if s = 0x3E then some ']'
  else if s = 0x40 then some '|'
  else if s = 0x65 then some '€'
  else none

/-- Escape-table encode direction: the explicit `match c` arms of
`Gsm7Writer::write_char` that call `write_ext`. -/
def escCode (c : Char) : Option Nat :=
  if c = '\x0C' then some 0x0A
  else if c = '^' then some 0x14
  else if c = '{' then some 0x28
  else if c = '}' then some 0x29
  else if c = '\\' then some 0x2F
  else if c = '[' then some 0x3C
  else if c = '~' then some 0x3D
  else if c = ']' then some 0x3E
  else if c = '|' then some 0x40
  else if c = '€' then some 0x65
  else none

/-- `GSM7_CHARSET.iter().position(|&v| v == c)` of `write_char`. -/
def position (c : Char) : Option Nat :=
  GSM7_CHARSET.findIdx? (fun v => v = c)

/-- State of `Gsm7Writer<Vec<u8>>`: the wrapped `BitWriter` and the
`counter` of bits written through the counted operations. -/
structure Gsm7Writer where
  writer : BitW
  counter : Nat
deriving DecidableEq, Repr

/-- `Gsm7Writer::new` on an empty `Vec`. -/
def Gsm7Writer.new : Gsm7Writer := ⟨⟨[], []⟩, 0⟩

/-- `Gsm7Writer::write_bit`: one bit to the bit writer, counter + 1. -/
def Gsm7Writer.write_bit (w : Gsm7Writer) (bit : Bool) : Gsm7Writer :=
  ⟨w.writer.pushBit bit, w.counter + 1⟩

/-- `Gsm7Writer::write(bits, value)`: raw N-bit write, counter + bits.
Pairs the `io::Result<()>` with the writer, mirroring `&mut self`:
`BitWriter::write` rejects an excessive value (`value ≥ 2 ^ bits`) with
`InvalidInput` before any bit is written, and the `?` then returns
before `self.counter += bits`, so on failure the state comes back
untouched. The model takes the `Numeric` type wide enough for the
requested bit count, so the separate excessive-bits-for-type guard
never fires. -/
def Gsm7Writer.write (w : Gsm7Writer) (bits : Nat) (value : Nat) :
    Except ErrorKind Unit × Gsm7Writer :=
  if value < 2 ^ bits then
    (.ok (), ⟨w.writer.writeBits bits value, w.counter + bits⟩)
  else (.error .invalidInput, w)

/-- `Gsm7Writer::write_bytes(buf)`: forwards to the bit writer; the
source does not touch `counter` here. -/
def Gsm7Writer.write_bytes (w : Gsm7Writer) (buf : List Nat) : Gsm7Writer :=
  ⟨w.writer.writeBytesRaw buf, w.counter⟩

/-- `Gsm7Writer::write_ext(b)`: escape marker septet then extension
septet, counter + 14. -/
def Gsm7Writer.write_ext (w : Gsm7Writer) (b : Nat) : Gsm7Writer :=
  ⟨(w.writer.writeBits 7 0x1B).writeBits 7 b, w.counter + 14⟩

/-- `Gsm7Writer::write_char(c)`. The result pairs the `io::Result<()>`
with the (possibly unchanged) writer, mirroring `&mut self`: the
`NotEncodable` arm returns `Err` before any write, so the state comes
back untouched. -/
def Gsm7Writer.write_char (w : Gsm7Writer) (c : Char) : Except ErrorKind Unit × Gsm7Writer :=
  match escCode c with
  | some b => (.ok (), w.write_ext b)
  | none =>
    match position c with
    | some b => (.ok (), ⟨w.writer.writeBits 7 b, w.counter + 7⟩)
    | none => (.error .invalidData, w)

/-- `Gsm7Writer::write_str(s)`: `write_char` on each char, stopping at
the first error. -/
def Gsm7Writer.write_str (w : Gsm7Writer) : List Char → Except ErrorKind Unit × Gsm7Writer
  | [] => (.ok (), w)
  | c :: cs =>
    match w.write_char c with
    | (.ok _, w1) => w1.write_str cs
    | (.error e, w1) => (.error e, w1)

/-- `Gsm7Writer::into_writer()`: the padding rule on `counter % 8`, then
`BitWriter::into_writer()`, which returns the flushed bytes and discards
any pending accumulator bits. -/
def Gsm7Writer.into_writer (w : Gsm7Writer) : List Nat :=
  let remainder := w.counter % 8
  if remainder = 7 then (w.writer.writeBits 7 0x0D).bytes
  else if remainder ≠ 0 then w.writer.byteAlign.bytes
  else w.writer.bytes

/-- Bit stream of a byte source read through
`BitReader<_, LittleEndian>`: each byte LSB-first. -/
def bytesToBits (bytes : List Nat) : List Bool :=
  (bytes.map (bitsOfNat 8)).flatten

/-- `BitReader::read(7)`: succeeds iff 7 bits remain, assembling them
LSB-first; otherwise `UnexpectedEof`. -/
def read7 (bits : List Bool) : Option (Nat × List Bool) :=
  if 7 ≤ bits.length then some (natOfBits (bits.take 7), bits.drop 7) else none

/-- `Gsm7Reader::read_char()` on the remaining bit stream: returns the
`io::Result<Option<char>>` together with the remaining bits. -/
def read_char (bits : List Bool) : Except ErrorKind (Option Char × List Bool) :=
  match read7 bits with
  | none => .ok (none, bits)
  | some (septet, rest) =>
    if septet = ESC then
      match read7 rest with
      | none => .error .unexpectedEof
      | some (s2, rest2) =>
        match escDecodeChar s2 with
        | some c => .ok (some c, rest2)
        | none => .error .invalidData
    else
      match GSM7_CHARSET.get? septet with
      | some c => .ok (some c, rest)
      | none => .error .invalidData

/-- Iterating `read_char`, as the `Iterator` impl /
`collect::<io::Result<String>>()` does: stops cleanly at `Ok(None)`,
propagates the first error. Structural recursion on a fuel bound; every
successful step consumes at least 7 bits, so any fuel with
`bits.length < 7 * fuel` is enough (`decodeAllFuel_irrelevant` below),
and the fuel-exhausted branch is unreachable from `decodeAll`. -/
def decodeAllFuel : Nat → List Bool → Except ErrorKind (List Char)
  | 0, _ => .ok []
  | fuel + 1, bits =>
    match read_char bits with
    | .error e => .error e
    | .ok (none, _) => .ok []
    | .ok (some c, rest) =>
      match decodeAllFuel fuel rest with
      | .error e => .error e
      | .ok cs => .ok (c :: cs)

/-- Iterate `read_char` to exhaustion. -/
def decodeAll (bits : List Bool) : Except ErrorKind (List Char) :=
  decodeAllFuel (bits.length + 1) bits

/-- Decode a byte buffer: `Gsm7Reader::new(Cursor::new(bytes))` then
collect. -/
def decodeBytes (bytes : List Nat) : Except ErrorKind (List Char) :=
  decodeAll (bytesToBits bytes)

/-- Encode a string: `Gsm7Writer::new(Vec::new())`, `write_str`,
`into_writer`. -/
def encodeString (s : List Char) : Except ErrorKind (List Nat) :=
  match Gsm7Writer.new.write_str s with
  | (.ok _, w) => .ok w.into_writer
  | (.error e, _) => .error e

/-- Auxiliary: a successful 7-bit read consumed exactly 7 bits. -/
theorem read7_some {bits : List Bool} {s : Nat} {rest : List Bool}
    (h : read7 bits = some (s, rest)) : rest.length + 7 = bits.length := by
  unfold read7 at h
  split at h
  · next hle =>
    simp only [Option.some.injEq, Prod.mk.injEq] at h
    obtain ⟨_, h2⟩ := h
    subst h2
    simp only [List.length_drop]
    omega
  · simp at h

/-- Auxiliary bound: a successful `read_char` producing a character
consumes at least 7 bits. -/
theorem read_char_consumes {bits : List Bool} {c : Char} {rest : List Bool}
    (h : read_char bits = .ok (some c, rest)) : rest.length + 7 ≤ bits.length := by
  unfold read_char at h
  cases h1 : read7 bits with
  | none => rw [h1] at h; exact absurd h (by simp)
  | some p =>
    obtain ⟨s, r⟩ := p
    rw [h1] at h
    have hr := read7_some h1
    simp only at h
    split at h
    · cases h2 : read7 r with
      | none => rw [h2] at h; exact absurd h (by simp)
      | some q =>
        obtain ⟨s2, r2⟩ := q
        rw [h2] at h
        have hr2 := read7_some h2
        simp only at h
        cases h3 : escDecodeChar s2 with
        | none => rw [h3] at h; exact absurd h (by simp)
        | some c2 =>
          rw [h3] at h
          simp only [Except.ok.injEq, Prod.mk.injEq, Option.some.injEq] at h
          obtain ⟨_, h4⟩ := h
          subst h4
          omega
    · cases h3 : GSM7_CHARSET.get? s with
      | none => rw [h3] at h; exact absurd h (by simp)
      | some c2 =>
        rw [h3] at h
        simp only [Except.ok.injEq, Prod.mk.injEq, Option.some.injEq] at h
        obtain ⟨_, h4⟩ := h
        subst h4
        omega

/-- One step of fuel surplus never changes the result, given enough
fuel for the bit count. -/
theorem decodeAllFuel_stable :
    ∀ (f : Nat) (bits : List Bool), bits.length < 7 * f →
      decodeAllFuel f bits = decodeAllFuel (f + 1) bits := by
  intro f
  induction f with
  | zero => intro bits h; omega
  | succ f ih =>
    intro bits h
    show decodeAllFuel (f + 1) bits = decodeAllFuel (f + 1 + 1) bits
    unfold decodeAllFuel
    cases h1 : read_char bits with
    | error e => rfl
    | ok p =>
      obtain ⟨oc, rest⟩ := p
      cases oc with
      | none => rfl
      | some c =>
        have hlen := read_char_consumes h1
        dsimp only
        rw [ih rest (by omega)]

/-- Any fuel beyond the consumption bound computes `decodeAll`. -/
theorem decodeAllFuel_irrelevant (f : Nat) (bits : List Bool)
    (h : bits.length < 7 * f) : decodeAllFuel f bits = decodeAll bits := by
  unfold decodeAll
  have key : ∀ (d g : Nat), bits.length < 7 * g →
      decodeAllFuel g bits = decodeAllFuel (g + d) bits := by
    intro d
    induction d with
    | zero => intro g _; rfl
    | succ d ih =>
      intro g hg
      rw [decodeAllFuel_stable g bits hg, ih (g + 1) (by omega)]
      ring_nf
  rcases Nat.le_total f (bits.length + 1) with hle | hle
  · obtain ⟨d, hd⟩ := Nat.le.dest hle
    rw [key d f h, hd]
  · obtain ⟨d, hd⟩ := Nat.le.dest hle
    rw [key d (bits.length + 1) (by omega), hd]

/-- Unfolding equation for one produced bit. -/
theorem bitsOfNat_succ (n v : Nat) :
    bitsOfNat (n + 1) v = decide (v % 2 = 1) :: bitsOfNat n (v / 2) := rfl

/-- Writing back the value of a bit list recovers the list. -/
theorem bitsOfNat_natOfBits (l : List Bool) :
    bitsOfNat l.length (natOfBits l) = l := by
  induction l with
  | nil => rfl
  | cons b t ih =>
    show bitsOfNat (t.length + 1) (natOfBits (b :: t)) = b :: t
    rw [bitsOfNat_succ]
    cases b with
    | false =>
      have hval : natOfBits (false :: t) = 2 * natOfBits t := by simp [natOfBits]
      rw [hval, show (2 * natOfBits t) % 2 = 0 by omega,
        show (2 * natOfBits t) / 2 = natOfBits t by omega]
      simp [ih]
    | true =>
      have hval : natOfBits (true :: t) = 1 + 2 * natOfBits t := by simp [natOfBits]
      rw [hval, show (1 + 2 * natOfBits t) % 2 = 1 by omega,
        show (1 + 2 * natOfBits t) / 2 = natOfBits t by omega]
      simp [ih]

/-- A bit-list value is bounded by the corresponding power of two. -/
theorem natOfBits_lt (l : List Bool) : natOfBits l < 2 ^ l.length := by
  induction l with
  | nil => simp [natOfBits]
  | cons b t ih =>
    have hval : natOfBits (b :: t) = (if b then 1 else 0) + 2 * natOfBits t := rfl
    have : 2 ^ (b :: t).length = 2 * 2 ^ t.length := by
      simp [List.length_cons, pow_succ]; ring
    rw [hval, this]
    cases b <;> simp <;> omega

/-- `bitsOfNat` produces exactly the requested number of bits. -/
theorem bitsOfNat_length (n v : Nat) : (bitsOfNat n v).length = n := by
  induction n generalizing v with
  | zero => rfl
  | succ n ih => simp [bitsOfNat, ih]

/-- Effect of pushing a single bit on the accumulator length, the flushed
byte count, and the emitted stream. -/
theorem pushBit_spec (w : BitW) (b : Bool) (h : w.acc.length < 8) :
    (w.pushBit b).acc.length = (w.acc.length + 1) % 8 ∧
    (w.pushBit b).bytes.length = w.bytes.length + (w.acc.length + 1) / 8 ∧
    (w.pushBit b).emitted = w.emitted ++ [b] := by
  unfold BitW.pushBit
  by_cases h8 : (w.acc ++ [b]).length = 8
  · rw [if_pos h8]
    simp only [List.length_append, List.length_singleton] at h8
    refine ⟨by simp; omega, by simp; omega, ?_⟩
    unfold BitW.emitted
    simp only [List.map_append, List.map_cons, List.map_nil, List.flatten_append,
      List.flatten_cons, List.flatten_nil, List.append_nil]
    have hlen : (w.acc ++ [b]).length = 8 := by simp; omega
    rw [← hlen, bitsOfNat_natOfBits]
    simp
  · rw [if_neg h8]
    simp only [List.length_append, List.length_singleton] at h8
    refine ⟨by simp; omega, by simp; omega, ?_⟩
    unfold BitW.emitted
    simp

/-- Effect of pushing a list of bits: the emitted stream is extended by
exactly those bits, and lengths advance by Euclidean division by 8. -/
theorem pushBits_spec (bs : List Bool) :
    ∀ w : BitW, w.acc.length < 8 →
      (w.pushBits bs).acc.length = (w.acc.length + bs.length) % 8 ∧
      (w.pushBits bs).bytes.length = w.bytes.length + (w.acc.length + bs.length) / 8 ∧
      (w.pushBits bs).emitted = w.emitted ++ bs := by
  induction bs with
  | nil =>
    intro w h
    refine ⟨?_, ?_, by simp [BitW.pushBits]⟩
    · simp only [BitW.pushBits, List.foldl_nil, List.length_nil]
      omega
    · simp only [BitW.pushBits, List.foldl_nil, List.length_nil]
      omega
  | cons b t ih =>
    intro w h
    have hstep := pushBit_spec w b h
    have hlt : (w.pushBit b).acc.length < 8 := by omega
    have hrec := ih (w.pushBit b) hlt
    have hunf : w.pushBits (b :: t) = (w.pushBit b).pushBits t := rfl
    refine ⟨?_, ?_, ?_⟩
    · rw [hunf, hrec.1, hstep.1]; simp; omega
    · rw [hunf, hrec.2.1, hstep.2.1, hstep.1]; simp; omega
    · rw [hunf, hrec.2.2, hstep.2.2]; simp

/-- Accumulator length stays below 8 under any push. -/
theorem pushBits_acc_lt (bs : List Bool) (w : BitW) (h : w.acc.length < 8) :
    (w.pushBits bs).acc.length < 8 := by
  have := (pushBits_spec bs w h).1
  omega

/-- `writeBits` appends exactly the low bits of the value. -/
theorem writeBits_emitted (w : BitW) (n v : Nat) (h : w.acc.length < 8) :
    (w.writeBits n v).emitted = w.emitted ++ bitsOfNat n v :=
  (pushBits_spec (bitsOfNat n v) w h).2.2

/-- `write_bytes` pushes 8 bits per buffer byte. -/
theorem writeBytesRaw_spec (buf : List Nat) :
    ∀ w : BitW, w.acc.length < 8 →
      (w.writeBytesRaw buf).emitted = w.emitted ++ (buf.map (bitsOfNat 8)).flatten ∧
      (w.writeBytesRaw buf).acc.length = w.acc.length := by
  induction buf with
  | nil => intro w h; exact ⟨by simp [BitW.writeBytesRaw], rfl⟩
  | cons x t ih =>
    intro w h
    have h1 := pushBits_spec (bitsOfNat 8 x) w h
    have hlt : (w.writeBits 8 x).acc.length < 8 := by
      have := h1.1; unfold BitW.writeBits; omega
    have hrec := ih (w.writeBits 8 x) hlt
    have hunf : w.writeBytesRaw (x :: t) = (w.writeBits 8 x).writeBytesRaw t := by
      simp only [BitW.writeBytesRaw, List.foldl_cons]
    constructor
    · rw [hunf, hrec.1, writeBits_emitted w 8 x h]
      simp
    · rw [hunf, hrec.2]
      have := h1.1
      unfold BitW.writeBits
      rw [this, bitsOfNat_length]
      omega

/-- A successful `findIdx?` points at an element satisfying the
predicate. -/
theorem findIdx?_some_get {α : Type} (p : α → Bool) :
    ∀ (l : List α) (i k : Nat), List.findIdx? p l i = some k →
      i ≤ k ∧ ∃ a, l.get? (k - i) = some a ∧ p a = true := by
  intro l
  induction l with
  | nil => intro i k h; simp [List.findIdx?_nil] at h
  | cons x t ih =>
    intro i k h
    rw [List.findIdx?_cons] at h
    by_cases hp : p x = true
    · rw [if_pos hp] at h
      simp only [Option.some.injEq] at h
      subst h
      exact ⟨le_refl _, x, by simp, hp⟩
    · rw [if_neg hp] at h
      obtain ⟨hle, a, hget, hpa⟩ := ih (i + 1) k h
      refine ⟨by omega, a, ?_, hpa⟩
      have : k - i = (k - (i + 1)) + 1 := by omega
      rw [this]
      simpa using hget

/-- A successful base-table `position` lookup recovers the character at
the found septet index. -/
theorem position_get {c : Char} {k : Nat} (h : position c = some k) :
    GSM7_CHARSET.get? k = some c := by
  unfold position at h
  obtain ⟨_, a, hget, hpa⟩ := findIdx?_some_get (fun v => v = c) GSM7_CHARSET 0 k h
  simp only [Nat.sub_zero] at hget
  simp only [decide_eq_true_eq] at hpa
  rwa [hpa] at hget

/-- Total bit length of a byte buffer's bit expansion. -/
theorem flattenBits_length (buf : List Nat) :
    ((buf.map (bitsOfNat 8)).flatten).length = 8 * buf.length := by
  induction buf with
  | nil => rfl
  | cons x t ih =>
    simp only [List.map_cons, List.flatten_cons, List.length_append,
      bitsOfNat_length, ih, List.length_cons]
    ring

set_option maxRecDepth 10000 in
/-- C1: the round-trip property fails on the code. The seven-character
base-table string "ttttttt" (49 bits, `49 % 8 = 1`) is zero-padded by
`into_writer`, and the decoder reads the seven zero padding bits as a
full septet 0, so decoding appends a spurious `'@'`. -/
theorem roundtrip_appends_at_for_seven_septets :
    (encodeString "ttttttt".toList).bind decodeBytes =
      .ok ("ttttttt".toList ++ ['@']) ∧
    "ttttttt".toList ++ ['@'] ≠ "ttttttt".toList := by
  constructor
  · rfl
  · simp

/-- C2: `into_writer` computes `remainder = counter % 8`; at 7 it writes
one extra 7-bit unit 0x0D into the bit writer (exactly one further byte
reaches the sink), at other nonzero remainders it zero-pads the final
byte via `byte_align` (again exactly one further byte), and at 0 it
returns the flushed bytes untouched. -/
theorem into_writer_padding (w : Gsm7Writer)
    (h : w.writer.acc.length = w.counter % 8) :
    (w.counter % 8 = 0 → w.into_writer = w.writer.bytes) ∧
    (w.counter % 8 = 7 → w.into_writer = (w.writer.writeBits 7 0x0D).bytes ∧
      (w.writer.writeBits 7 0x0D).bytes.length = w.writer.bytes.length + 1) ∧
    (w.counter % 8 ≠ 0 → w.counter % 8 ≠ 7 →
      w.into_writer = w.writer.byteAlign.bytes ∧
      w.writer.byteAlign.bytes.length = w.writer.bytes.length + 1) := by
  have hlt : w.writer.acc.length < 8 := by omega
  refine ⟨?_, ?_, ?_⟩
  · intro h0
    simp [Gsm7Writer.into_writer, h0]
  · intro h7
    refine ⟨by simp [Gsm7Writer.into_writer, h7], ?_⟩
    unfold BitW.writeBits
    rw [(pushBits_spec (bitsOfNat 7 0x0D) w.writer hlt).2.1, bitsOfNat_length]
    omega
  · intro hne0 hne7
    refine ⟨?_, ?_⟩
    · unfold Gsm7Writer.into_writer
      rw [if_neg hne7, if_pos hne0]
    · unfold BitW.byteAlign
      have hne : ¬ w.writer.acc.isEmpty = true := by
        simp only [List.isEmpty_eq_true]
        intro hnil
        rw [hnil] at h
        simp at h
        omega
      rw [if_neg hne,
        (pushBits_spec (List.replicate (8 - w.writer.acc.length) false) w.writer hlt).2.1,
        List.length_replicate]
      omega

/-- C2 witness: a writer holding one septet (counter 7) gets the 0x0D
filler and flushes exactly one byte. -/
theorem into_writer_padding_witness :
    Gsm7Writer.into_writer (Gsm7Writer.write Gsm7Writer.new 7 0x54).2 =
      (BitW.writeBits (Gsm7Writer.write Gsm7Writer.new 7 0x54).2.writer 7 0x0D).bytes ∧
    (BitW.writeBits (Gsm7Writer.write Gsm7Writer.new 7 0x54).2.writer 7 0x0D).bytes.length =
      (Gsm7Writer.write Gsm7Writer.new 7 0x54).2.writer.bytes.length + 1 :=
  (into_writer_padding (Gsm7Writer.write Gsm7Writer.new 7 0x54).2 (by rfl)).2.1 (by rfl)

/-- C3 counterexample: `write_char '\x1B'` succeeds via the base table
(whose entry 27 is U+001B) and emits the bare septet 0x1B — exactly 7
bits, not followed by any second septet — although U+001B is not an
escape-table character. -/
theorem write_char_esc_input_counterexample :
    (Gsm7Writer.new.write_char '\x1B').1 = .ok () ∧
    (Gsm7Writer.new.write_char '\x1B').2.writer.emitted = bitsOfNat 7 ESC ∧
    (Gsm7Writer.new.write_char '\x1B').2.counter = 7 ∧
    escCode '\x1B' = none :=
  ⟨rfl, rfl, rfl, rfl⟩

/-- C3 amended: for every character other than U+001B, the writer emits
septet 0x1B only when encoding an escape-table character, and then the
marker is immediately followed by the extension septet; a base-table hit
emits a single septet different from 0x1B. -/
theorem write_char_escape_marker_discipline (w : Gsm7Writer) (c : Char)
    (hacc : w.writer.acc.length < 8) (hc : c ≠ '\x1B') :
    (∀ b, escCode c = some b →
      (w.write_char c).2.writer.emitted =
        w.writer.emitted ++ (bitsOfNat 7 ESC ++ bitsOfNat 7 b)) ∧
    (escCode c = none → ∀ k, position c = some k →
      k ≠ ESC ∧
      (w.write_char c).2.writer.emitted = w.writer.emitted ++ bitsOfNat 7 k) := by
  constructor
  · intro b hb
    unfold Gsm7Writer.write_char
    rw [hb]
    dsimp only
    unfold Gsm7Writer.write_ext
    dsimp only
    have h1 : (w.writer.writeBits 7 ESC).acc.length < 8 := by
      unfold BitW.writeBits
      exact pushBits_acc_lt _ _ hacc
    rw [show (0x1B : Nat) = ESC from rfl, writeBits_emitted _ 7 b h1,
      writeBits_emitted _ 7 ESC hacc, List.append_assoc]
  · intro hnone k hk
    constructor
    · intro hkE
      have hget := position_get hk
      rw [hkE, show (ESC : Nat) = 27 from rfl] at hget
      rw [show GSM7_CHARSET.get? 27 = some '\x1B' from rfl] at hget
      exact hc (Option.some.inj hget).symm
    · unfold Gsm7Writer.write_char
      rw [hnone, hk]
      dsimp only
      exact writeBits_emitted _ 7 k hacc

/-- C3 amended witness: the euro sign emits the escape pair. -/
theorem write_char_escape_marker_discipline_witness :
    (Gsm7Writer.new.write_char '€').2.writer.emitted =
      Gsm7Writer.new.writer.emitted ++ (bitsOfNat 7 ESC ++ bitsOfNat 7 0x65) :=
  (write_char_escape_marker_discipline Gsm7Writer.new '€' (by decide)
    (by decide)).1 0x65 (by rfl)

set_option maxRecDepth 10000 in
/-- C4: for "ttttttt" the total bit count is 49 ≡ 1 (mod 8), yet
`into_writer` does not append a 0x0D unit — it zero-pads — and decoding
the produced bytes yields an extra `'@'` from the padding. -/
theorem padding_at_one_mod_eight_zero_pads :
    (Gsm7Writer.new.write_str "ttttttt".toList).2.counter % 8 = 1 ∧
    encodeString "ttttttt".toList = .ok [116, 58, 157, 78, 167, 211, 1] ∧
    decodeBytes [116, 58, 157, 78, 167, 211, 1] = .ok "ttttttt@".toList :=
  ⟨rfl, rfl, rfl⟩

/-- C5 counterexample: `write_bytes` emits 8 bits per byte but does not
advance the shared `counter` at all. -/
theorem write_bytes_skips_counter_counterexample :
    (Gsm7Writer.new.write_bytes [0x41]).counter = 0 ∧
    (Gsm7Writer.new.write_bytes [0x41]).writer.emitted.length = 8 :=
  ⟨rfl, rfl⟩

/-- C5 amended: `write_bit` advances the shared `counter` by the one bit
it emits, and `write` with an in-range value advances by its bit count
and emits exactly that many bits; with an excessive value `write` fails
with `InvalidInput` and neither emits nor advances. `write_bytes`
however emits `8 * buf.length` bits while leaving `counter` unchanged
(a whole number of bytes, so the `counter % 8` read by the padding rule
stays in sync). -/
theorem low_level_counter_advancement (w : Gsm7Writer) (b : Bool)
    (n v : Nat) (buf : List Nat) (hacc : w.writer.acc.length < 8) :
    ((w.write_bit b).counter = w.counter + 1 ∧
      (w.write_bit b).writer.emitted = w.writer.emitted ++ [b]) ∧
    (v < 2 ^ n →
      (w.write n v).1 = .ok () ∧
      (w.write n v).2.counter = w.counter + n ∧
      (w.write n v).2.writer.emitted.length = w.writer.emitted.length + n) ∧
    (2 ^ n ≤ v → w.write n v = (.error .invalidInput, w)) ∧
    ((w.write_bytes buf).counter = w.counter ∧
      (w.write_bytes buf).writer.emitted.length =
        w.writer.emitted.length + 8 * buf.length) := by
  refine ⟨⟨rfl, ?_⟩, ?_, ?_, ⟨rfl, ?_⟩⟩
  · exact (pushBit_spec w.writer b hacc).2.2
  · intro hv
    unfold Gsm7Writer.write
    rw [if_pos hv]
    refine ⟨rfl, rfl, ?_⟩
    show (w.writer.writeBits n v).emitted.length = w.writer.emitted.length + n
    rw [writeBits_emitted _ n v hacc]
    simp [bitsOfNat_length]
  · intro hv
    unfold Gsm7Writer.write
    rw [if_neg (by omega)]
  · show (w.writer.writeBytesRaw buf).emitted.length =
      w.writer.emitted.length + 8 * buf.length
    rw [(writeBytesRaw_spec buf w.writer hacc).1, List.length_append,
      flattenBits_length]

/-- C5 amended witness at concrete inputs: a counted bit, an in-range
3-bit write, an excessive-value write, and a byte passthrough. -/
theorem low_level_counter_advancement_witness :
    ((Gsm7Writer.new.write_bit true).counter = Gsm7Writer.new.counter + 1 ∧
      (Gsm7Writer.new.write_bit true).writer.emitted =
        Gsm7Writer.new.writer.emitted ++ [true]) ∧
    ((Gsm7Writer.new.write 3 5).1 = .ok () ∧
      (Gsm7Writer.new.write 3 5).2.counter = Gsm7Writer.new.counter + 3 ∧
      (Gsm7Writer.new.write 3 5).2.writer.emitted.length =
        Gsm7Writer.new.writer.emitted.length + 3) ∧
    (Gsm7Writer.new.write 3 200 = (.error .invalidInput, Gsm7Writer.new)) ∧
    ((Gsm7Writer.new.write_bytes [0xFF]).counter = Gsm7Writer.new.counter ∧
      (Gsm7Writer.new.write_bytes [0xFF]).writer.emitted.length =
        Gsm7Writer.new.writer.emitted.length + 8 * [0xFF].length) :=
  ⟨(low_level_counter_advancement Gsm7Writer.new true 3 5 [0xFF] (by decide)).1,
   (low_level_counter_advancement Gsm7Writer.new true 3 5 [0xFF]
      (by decide)).2.1 (by decide),
   (low_level_counter_advancement Gsm7Writer.new true 3 200 [0xFF]
      (by decide)).2.2.1 (by decide),
   (low_level_counter_advancement Gsm7Writer.new true 3 5 [0xFF]
      (by decide)).2.2.2⟩

/-- C6: the two known byte vectors decode exactly to "Tttt" and "Test". -/
theorem known_vectors_decode :
    decodeBytes [0x54, 0x3A, 0x9D, 0x0E] = .ok "Tttt".toList ∧
    decodeBytes [0xD4, 0xF2, 0x9C, 0x0E] = .ok "Test".toList :=
  ⟨rfl, rfl⟩

/-- C7: a character in neither table makes `write_char` fail with the
InvalidData error and hands back the writer state untouched, so any
subsequent writes behave as if the failing call had never happened. -/
theorem write_char_not_encodable (w : Gsm7Writer) (c : Char)
    (h1 : escCode c = none) (h2 : position c = none) :
    w.write_char c = (.error .invalidData, w) ∧
    ∀ s : List Char, ((w.write_char c).2).write_str s = w.write_str s := by
  have hmain : w.write_char c = (.error .invalidData, w) := by
    unfold Gsm7Writer.write_char
    rw [h1, h2]
  exact ⟨hmain, fun s => by rw [hmain]⟩

/-- C7 witness: a CJK character is rejected without touching the state. -/
theorem write_char_not_encodable_witness :
    Gsm7Writer.new.write_char '中' = (.error .invalidData, Gsm7Writer.new) ∧
    ((Gsm7Writer.new.write_char '中').2).write_str ['T'] =
      Gsm7Writer.new.write_str ['T'] :=
  ⟨(write_char_not_encodable Gsm7Writer.new '中' (by rfl) (by rfl)).1,
   (write_char_not_encodable Gsm7Writer.new '中' (by rfl) (by rfl)).2 ['T']⟩

/-- C8: with fewer than 7 bits left (none at all, or a partial septet
outside an escape sequence) `read_char` returns a clean `Ok(None)`, and
the empty byte sequence decodes to the empty character sequence. -/
theorem read_char_eof_clean (bits : List Bool) (h : bits.length < 7) :
    read_char bits = .ok (none, bits) ∧ decodeBytes [] = .ok [] := by
  constructor
  · unfold read_char read7
    rw [if_neg (by omega)]
  · rfl

/-- C8 witness: two leftover bits are silently dropped. -/
theorem read_char_eof_clean_witness :
    read_char [true, false] = .ok (none, [true, false]) ∧
    decodeBytes [] = .ok [] :=
  read_char_eof_clean [true, false] (by decide)

/-- C9: after reading the 7-bit escape marker, an incomplete second unit
is a hard `UnexpectedEof` error (never a clean None), and a complete
second unit outside the ten extension codes is an InvalidData error. -/
theorem escape_obligates_second_septet (bits : List Bool)
    (h7 : 7 ≤ bits.length) (hmark : natOfBits (bits.take 7) = ESC) :
    (bits.length < 14 → read_char bits = .error .unexpectedEof) ∧
    (∀ s2, 14 ≤ bits.length → natOfBits ((bits.drop 7).take 7) = s2 →
      escDecodeChar s2 = none → read_char bits = .error .invalidData) := by
  constructor
  · intro hlt
    unfold read_char read7
    rw [if_pos h7]
    dsimp only
    rw [hmark, if_pos rfl,
      if_neg (show ¬ 7 ≤ (List.drop 7 bits).length by
        simp only [List.length_drop]; omega)]
  · intro s2 hge hs2 hesc
    unfold read_char read7
    rw [if_pos h7]
    dsimp only
    rw [hmark, if_pos rfl,
      if_pos (show 7 ≤ (List.drop 7 bits).length by
        simp only [List.length_drop]; omega)]
    dsimp only
    rw [hs2, hesc]

/-- C9 witness: a lone escape marker errors with UnexpectedEof; marker
followed by septet 0 errors with InvalidData. -/
theorem escape_obligates_second_septet_witness :
    read_char (bitsOfNat 7 ESC) = .error .unexpectedEof ∧
    read_char (bitsOfNat 7 ESC ++ bitsOfNat 7 0) = .error .invalidData :=
  ⟨(escape_obligates_second_septet (bitsOfNat 7 ESC) (by decide)
      (by decide)).1 (by decide),
   (escape_obligates_second_septet (bitsOfNat 7 ESC ++ bitsOfNat 7 0)
      (by decide) (by decide)).2 0 (by decide) (by decide) (by decide)⟩

/-- C10: the encode-side NotEncodable failure and the decode-side
invalid-code failure surface as the identical error value, the
InvalidData kind, indistinguishable to a caller. -/
theorem encode_decode_share_invalid_data (w : Gsm7Writer) (c : Char)
    (h1 : escCode c = none) (h2 : position c = none)
    (bits : List Bool) (h3 : 14 ≤ bits.length)
    (h4 : natOfBits (bits.take 7) = ESC)
    (h5 : escDecodeChar (natOfBits ((bits.drop 7).take 7)) = none) :
    (w.write_char c).1 = .error ErrorKind.invalidData ∧
    read_char bits = .error ErrorKind.invalidData := by
  constructor
  · unfold Gsm7Writer.write_char
    rw [h1, h2]
  · unfold read_char read7
    rw [if_pos (show 7 ≤ bits.length by omega)]
    dsimp only
    rw [h4, if_pos rfl,
      if_pos (show 7 ≤ (List.drop 7 bits).length by
        simp only [List.length_drop]; omega)]
    dsimp only
    rw [h5]

/-- C10 witness at concrete inputs. -/
theorem encode_decode_share_invalid_data_witness :
    (Gsm7Writer.new.write_char '中').1 = .error ErrorKind.invalidData ∧
    read_char (bitsOfNat 7 ESC ++ bitsOfNat 7 1) = .error ErrorKind.invalidData :=
  encode_decode_share_invalid_data Gsm7Writer.new '中' (by rfl) (by rfl)
    (bitsOfNat 7 ESC ++ bitsOfNat 7 1) (by decide) (by decide) (by decide)

end Gsm7
